import Mathlib

/-!
Shallow embedding of the `faircmd` coordination primitive
(src/include/faircmd_machine.hpp, faircmd_split.hpp, faircmd_hybrid.hpp).

Tokens are C++ `std::string` values, modelled as Lean `String`s (the emitter
in `faircmd_hybrid::emit_cpp` iterates over raw bytes, so there tokens are
modelled as lists of byte values instead).  The three backends keep their
state behind one mutex; every match attempt and every feed is a single
critical section, so a wait is modelled as a function of the sequence of
store states it observes at successive polls (interleaved producers may
change the store between polls, never during one).
-/

/-- Outcome of one locked poll of the store inside a wait loop:
the match succeeded (with the updated state), the store was empty,
or the store was non-empty but the match failed. -/
inductive PollOut (σ : Type) where
  | success (s : σ)
  | empty
  | mismatch
  deriving Repr, DecidableEq

/-- Outcome of a whole wait observed along a finite trace of polls:
the wait returned (with the updated state), it threw after exhausting the
fail budget, or the trace ended while it was still looping (blocked or
backing off) with the given remaining-attempts counter. -/
inductive WaitOut (σ : Type) where
  | consumed (s : σ)
  | failed
  | pending (remaining : Int)
  deriving Repr, DecidableEq

namespace faircmd_machine

/-- One locked poll of `faircmd_machine::WaitForCommand` (lines 79-87):
the loop first blocks until the deque is non-empty
(`cv().wait(lk, ...!q().empty()...)`), then consumes iff
`q().front() == exp`, popping the front. -/
def poll (q : List String) (exp : String) : PollOut (List String) :=
  match q with
  | [] => .empty
  | h :: t => if h = exp then .success t else .mismatch

/-- The retry loop of `faircmd_machine::WaitForCommand` (lines 74-105) over
the trace of queue states seen at successive polls.  An empty store blocks
on the condition variable and re-loops without touching `remaining`; a
non-empty store with a front mismatch runs `if (--remaining <= 0) throw`. -/
def WaitForCommandTrace (exp : String) (remaining : Int) :
    List (List String) → WaitOut (List String)
  | [] => .pending remaining
  | q :: rest =>
    match poll q exp with
    | .success t => .consumed t
    | .empty => WaitForCommandTrace exp remaining rest
    | .mismatch =>
      if remaining - 1 ≤ 0 then .failed
      else WaitForCommandTrace exp (remaining - 1) rest

end faircmd_machine

namespace faircmd_hybrid

/-- One locked poll of `faircmd_hybrid::WaitForCommand` (lines 162-185):
consume iff the front equals `exp`; on success the matched token is popped
and appended to the consumption recorder
(`detail::record_consumed_unlocked(matched)`).  The state is the pair
(queue, consumed log). -/
def poll (q log : List String) (exp : String) :
    PollOut (List String × List String) :=
  match q with
  | [] => .empty
  | h :: t => if h = exp then .success (t, log ++ [h]) else .mismatch

/-- The helper `faircmd_hybrid::detail::erase_up_to_expected_unlocked_record`
(lines 99-111): scan for the first element equal to `exp`; if found, erase
everything up to and including it and return the remaining queue (the
caller records only the matched token). -/
def erase_up_to_expected (Q : List String) (exp : String) :
    Option (List String) :=
  match Q with
  | [] => none
  | h :: t => if h = exp then some t else erase_up_to_expected t exp

/-- One locked poll of `faircmd_hybrid::WaitForCommandLoose` (lines 207-234):
front-match fast path first; otherwise, if the queue is non-empty, try
`erase_up_to_expected_unlocked_record`; an empty queue idles; a non-empty
queue without the token is a mismatch. -/
def loosePoll (q log : List String) (exp : String) :
    PollOut (List String × List String) :=
  match q with
  | [] => .empty
  | h :: t =>
    if h = exp then .success (t, log ++ [h])
    else
      match erase_up_to_expected (h :: t) exp with
      | some rest => .success (rest, log ++ [exp])
      | none => .mismatch

/-- The retry loop of `faircmd_hybrid::WaitForCommand` (lines 157-198) over
the trace of (queue, log) states seen at successive polls.  An empty store
sleeps or blocks and re-loops without touching `remaining`; a non-empty
store with a front mismatch runs `if (--remaining <= 0) throw`. -/
def WaitForCommandTrace (exp : String) (remaining : Int) :
    List (List String × List String) → WaitOut (List String × List String)
  | [] => .pending remaining
  | (q, log) :: rest =>
    match poll q log exp with
    | .success s => .consumed s
    | .empty => WaitForCommandTrace exp remaining rest
    | .mismatch =>
      if remaining - 1 ≤ 0 then .failed
      else WaitForCommandTrace exp (remaining - 1) rest

/-- The retry loop of `faircmd_hybrid::WaitForCommandLoose` (lines 202-247)
over the trace of (queue, log) states seen at successive polls. -/
def WaitForCommandLooseTrace (exp : String) (remaining : Int) :
    List (List String × List String) → WaitOut (List String × List String)
  | [] => .pending remaining
  | (q, log) :: rest =>
    match loosePoll q log exp with
    | .success s => .consumed s
    | .empty => WaitForCommandLooseTrace exp remaining rest
    | .mismatch =>
      if remaining - 1 ≤ 0 then .failed
      else WaitForCommandLooseTrace exp (remaining - 1) rest

end faircmd_hybrid

namespace faircmd_split

/-- The bag of `faircmd_split::detail::bag()`: an
`unordered_map<std::string,int>` from token to remaining count, modelled as
an association list with one entry per key. -/
abbrev Bag := List (String × Int)

/-- Lookup in the bag (`bag().find(exp)`). -/
def bagFind (b : Bag) (k : String) : Option Int :=
  match b with
  | [] => none
  | (k0, c) :: rest => if k0 = k then some c else bagFind rest k

/-- The mutation `detail::bag()[s]++` of `faircmd_split::preload`/`push`
(lines 49-58): `operator[]` default-inserts the key with count 0, then the
count is incremented. -/
def bagIncr (b : Bag) (s : String) : Bag :=
  match b with
  | [] => [(s, 1)]
  | (k, c) :: rest => if k = s then (k, c + 1) :: rest else (k, c) :: bagIncr rest s

/-- The successful-match mutation of `faircmd_split::WaitForCommand`
(line 75): `if (--(it->second) == 0) detail::bag().erase(it);`. -/
def bagDecEra (b : Bag) (exp : String) : Bag :=
  match b with
  | [] => []
  | (k, c) :: rest =>
    if k = exp then (if c - 1 = 0 then rest else (k, c - 1) :: rest)
    else (k, c) :: bagDecEra rest exp

/-- One locked poll of `faircmd_split::WaitForCommand` (lines 72-78):
`find(exp)`, succeed iff present with `it->second > 0`, then decrement and
erase at zero.  There is no empty-store branch in this backend: an absent
key (bag empty included) is a mismatch. -/
def poll (b : Bag) (exp : String) : PollOut Bag :=
  match bagFind b exp with
  | some c => if 0 < c then .success (bagDecEra b exp) else .mismatch
  | none => .mismatch

/-- `faircmd_split::preload` (lines 49-53) starting from an empty bag. -/
def preload (tokens : List String) : Bag :=
  tokens.foldl bagIncr []

/-- The retry loop of `faircmd_split::WaitForCommand` (lines 67-93) over the
trace of bag states seen at successive polls.  Unlike machine/hybrid, every
unsuccessful poll (the bag being empty included) runs
`if (--remaining <= 0) throw`. -/
def WaitForCommandTrace (exp : String) (remaining : Int) :
    List Bag → WaitOut Bag
  | [] => .pending remaining
  | b :: rest =>
    match poll b exp with
    | .success b2 => .consumed b2
    | _ =>
      if remaining - 1 ≤ 0 then .failed
      else WaitForCommandTrace exp (remaining - 1) rest

end faircmd_split

/-- Normalization of a possibly-null C string argument, as in
`const std::string exp = expected ? expected : "";` at the top of every
wait entry point (faircmd_machine.hpp line 75, faircmd_split.hpp lines
68 and 97, faircmd_hybrid.hpp lines 158 and 203). -/
def expectedOrEmpty (expected : Option String) : String :=
  expected.getD ""

/-- Number of `true` flags in a list of booleans. -/
def countTrue : List Bool → Nat
  | [] => 0
  | true :: l => countTrue l + 1
  | false :: l => countTrue l

/-- An interleaving event seen by the shared store: a producer feeds one
occurrence of the contended token, or consumer thread `i` runs one locked
poll of its wait loop.  Every store operation in the sources runs under the
single backend mutex, so an execution is a sequence of such events. -/
inductive Ev where
  | feed
  | poll (i : Nat)
  deriving Repr, DecidableEq

/-- Number of feed events in a schedule. -/
def countFeeds : List Ev → Nat
  | [] => 0
  | .feed :: es => countFeeds es + 1
  | .poll _ :: es => countFeeds es

namespace faircmd_machine

/-- `faircmd_machine::preload` (lines 55-59): each item is handed to the
`std::string` constructor unchecked (`q().emplace_back(s)`), so a null item
has no defined result; the preloaded token list exists only when every item
is non-null. -/
def preloadTokens (items : List (Option String)) : Option (List String) :=
  items.mapM id

/-- Diagnostic text written to `std::cerr` by
`faircmd_machine::WaitForCommand` when the fail budget is exhausted (lines
89-94), streaming the caller id, the expected token, the token at the
front, and the currently configured fail budget.  (The header's escape
sequences are garbled in the file, but the streamed fields are these.) -/
def error_cerr (who exp front : String) (budget : Int) : String :=
  "[faircmd][ERROR] " ++ who ++ " expected \"" ++ exp ++ "\" but saw \""
    ++ front ++ "\"; giving up after " ++ toString budget ++ " waits\n"

/-- Message of the `std::runtime_error` thrown by
`faircmd_machine::WaitForCommand` (line 95). -/
def error_thrown : String :=
  "faircmd_machine: front mismatch"

end faircmd_machine

namespace faircmd_hybrid

/-- `faircmd_hybrid::preload` (lines 131-137): each item is normalized via
`s ? s : ""` before being appended, so a null item becomes the empty
token. -/
def preloadTokens (items : List (Option String)) : List String :=
  items.map (fun s => s.getD "")

/-- Diagnostic text written to `std::cerr` by
`faircmd_hybrid::WaitForCommand` before it throws (lines 186-191): the
function builds its message and throws without any `std::cerr` write, so
nothing is written. -/
def error_cerr : String := ""

/-- Message of the `std::runtime_error` thrown by
`faircmd_hybrid::WaitForCommand` (lines 187-190): caller id, expected
token, and the token at the front; the configured fail budget is not
included. -/
def error_thrown (who exp front : String) : String :=
  "WaitForCommand(" ++ who ++ "): expected \"" ++ exp ++ "\" but got \""
    ++ front ++ "\""

/-- State touched by `start_stdin_pumper`/`stop_stdin_pumper`
(lines 251-289): the running flag (`detail::pumper_running()`), the thread
handle (`detail::pumper_thread()`, `none` = null pointer, a `Nat` naming
the live thread object otherwise), a counter generating fresh thread
identities, and the token store, which those two functions never touch. -/
structure PumperState where
  running : Bool
  thread : Option Nat
  nextId : Nat
  q : List String
  deriving Repr, DecidableEq

/-- `faircmd_hybrid::start_stdin_pumper` (lines 251-278): a
compare-exchange on the running flag returns early when already running;
otherwise any stale handle is discarded and a freshly spawned thread's
handle is stored. -/
def start_stdin_pumper (s : PumperState) : PumperState :=
  if s.running then s
  else { running := true, thread := some s.nextId, nextId := s.nextId + 1, q := s.q }

/-- `faircmd_hybrid::stop_stdin_pumper` (lines 282-289): exchanging the
running flag to false returns early when it already was false; otherwise
the thread is detached, deleted, and the handle nulled. -/
def stop_stdin_pumper (s : PumperState) : PumperState :=
  if s.running then { running := false, thread := none, nextId := s.nextId, q := s.q }
  else s

/-- Lower-case hexadecimal digit, as produced by `std::hex` (emit_cpp line
322). -/
def hexDigit (n : Nat) : Char :=
  if n < 10 then Char.ofNat (48 + n) else Char.ofNat (87 + n)

/-- The escaping lambda `esc` of `faircmd_hybrid::emit_cpp` (lines
310-331), per byte: backslash, double quote, newline, carriage return and
tab get two-character escapes; any other byte below 0x20 or equal to 0x7F
becomes `\xHH` with exactly two lower-case hex digits; everything else is
emitted raw. -/
def escByte (c : Nat) : List Char :=
  if c = 92 then ['\\', '\\']
  else if c = 34 then ['\\', '"']
  else if c = 10 then ['\\', 'n']
  else if c = 13 then ['\\', 'r']
  else if c = 9 then ['\\', 't']
  else if c < 0x20 ∨ c = 0x7F then ['\\', 'x', hexDigit (c / 16), hexDigit (c % 16)]
  else [Char.ofNat c]

/-- The escaping lambda applied to one token (a byte string, since the
code iterates `for (unsigned char c : s)`): the escaped body wrapped in
double quotes. -/
def esc (s : List Nat) : List Char :=
  '"' :: (s.flatMap escByte ++ ['"'])

/-- Comma-separated escaped literals, as emitted by the loop of
`emit_cpp` (lines 350-353). -/
def escList : List (List Nat) → List Char
  | [] => []
  | [t] => esc t
  | t :: rest => esc t ++ (", ".data ++ escList rest)

/-- `faircmd_hybrid::emit_cpp` in its default "preload" mode (lines
348-355), applied to the consumption log: a `preload` call whose argument
list holds one escaped literal per consumed token. -/
def emit_cpp_preload (H : List (List Nat)) : List Char :=
  "faircmd_hybrid::preload(\x7b".data ++ escList H ++ "\x7d);\n".data

/-- Hexadecimal digit test of a C-family lexer. -/
def isHexDig (c : Char) : Bool :=
  (48 ≤ c.toNat ∧ c.toNat ≤ 57) ∨ (97 ≤ c.toNat ∧ c.toNat ≤ 102)
    ∨ (65 ≤ c.toNat ∧ c.toNat ≤ 70)

/-- Value of a hexadecimal digit. -/
def hexVal (c : Char) : Nat :=
  if c.toNat ≤ 57 then c.toNat - 48
  else if c.toNat ≤ 70 then c.toNat - 55
  else c.toNat - 87

/-- Body of a C-family string literal after the opening quote, unescaped
per the C/C++ lexing rules the claim appeals to: `\\`, `\"`, `\n`, `\r`,
`\t` are two-character escapes, and `\x` consumes every following
hexadecimal digit (maximal munch, [lex.ccon]), the resulting value having
to fit in one byte.  Returns the byte string when the remaining input is a
well-formed literal ending at its closing quote.  The first argument is
recursion fuel; every step consumes at least one character, so fuel equal
to the input length always suffices. -/
def unescBody : Nat → List Char → Option (List Nat)
  | 0, _ => none
  | _ + 1, [] => none
  | fuel + 1, c :: cs =>
    if c = '"' then (if cs.isEmpty then some [] else none)
    else if c = '\\' then
      match cs with
      | [] => none
      | e :: cs2 =>
        if e = '\\' then (unescBody fuel cs2).map (fun r => 92 :: r)
        else if e = '"' then (unescBody fuel cs2).map (fun r => 34 :: r)
        else if e = 'n' then (unescBody fuel cs2).map (fun r => 10 :: r)
        else if e = 'r' then (unescBody fuel cs2).map (fun r => 13 :: r)
        else if e = 't' then (unescBody fuel cs2).map (fun r => 9 :: r)
        else if e = 'x' then
          match cs2.takeWhile isHexDig with
          | [] => none
          | digs =>
            let v := digs.foldl (fun a d => a * 16 + hexVal d) 0
            if v ≤ 255 then
              (unescBody fuel (cs2.dropWhile isHexDig)).map (fun r => v :: r)
            else none
        else none
    else (unescBody fuel cs).map (fun r => c.toNat :: r)

/-- A full C-family string literal: an opening quote, then the body. -/
def unescapeCpp (l : List Char) : Option (List Nat) :=
  match l with
  | '"' :: rest => unescBody rest.length rest
  | _ => none

/-- Shared-store state observed by the concurrent-consumption runs: the
queue, the consumption log, and one finished flag per consumer thread. -/
structure RunState where
  q : List String
  log : List String
  done : List Bool
  deriving Repr, DecidableEq

/-- One interleaved execution against the hybrid store: a feed event
appends one occurrence of `T` (as `push`/the pumper do, lines 139-143);
a poll event by a thread that has not yet consumed runs one locked match
attempt of `WaitForCommand` (lines 162-170); threads that already consumed
have returned and poll no more. -/
def run (T : String) : List Ev → RunState → RunState
  | [], s => s
  | .feed :: es, s => run T es { s with q := s.q ++ [T] }
  | .poll i :: es, s =>
    if i < s.done.length ∧ s.done.getD i false = false then
      match poll s.q s.log T with
      | .success (q2, log2) =>
        run T es { q := q2, log := log2, done := s.done.set i true }
      | _ => run T es s
    else run T es s

end faircmd_hybrid

namespace faircmd_split

/-- All shared state of the `faircmd_split` namespace next to the mutex
and condition variable: the bag, the configured fail budget
(`default_fails`) and idle duration (`yield_ns`). -/
structure SharedState where
  bag : Bag
  default_fails : Int
  yield_ns : Int
  deriving Repr, DecidableEq

/-- Outcome of `faircmd_split::WaitForCommandLoose`: the expected line was
entered, the fail budget was exhausted, or `std::getline` failed (stream
closed). -/
inductive LooseOut where
  | success
  | exhausted
  | streamClosed
  deriving Repr, DecidableEq

/-- `faircmd_split::WaitForCommandLoose` (lines 96-120): reads whole lines
from standard input (modelled as the list of lines still available; an
exhausted list is a closed stream), compares each line to `exp`, and runs
`if (--remaining <= 0) throw` on each mismatch.  The shared state is
threaded through untouched, as the function performs no operation on it. -/
def WaitForCommandLoose (st : SharedState) (exp : String) (remaining : Int) :
    List String → LooseOut × SharedState
  | [] => (.streamClosed, st)
  | line :: rest =>
    if line = exp then (.success, st)
    else if remaining - 1 ≤ 0 then (.exhausted, st)
    else WaitForCommandLoose st exp (remaining - 1) rest

/-- Diagnostic text written to `std::cerr` by
`faircmd_split::WaitForCommand` when the fail budget is exhausted (lines
81-83). -/
def error_cerr (who exp : String) (budget : Int) : String :=
  "[faircmd-split][ERROR] " ++ who ++ " expected \"" ++ exp
    ++ "\" but it was not present; giving up after " ++ toString budget
    ++ " waits\n"

/-- Message of the `std::runtime_error` thrown by
`faircmd_split::WaitForCommand` (line 84). -/
def error_thrown : String :=
  "faircmd_split: token not present"

/-- Shared-store state observed by the concurrent-consumption runs on the
split backend: the bag and one finished flag per consumer thread. -/
structure RunState where
  bag : Bag
  done : List Bool
  deriving Repr, DecidableEq

/-- One interleaved execution against the split store: a feed event
increments the count of `T` (as `push` does, lines 54-58); a poll event by
a thread that has not yet consumed runs one locked match attempt of
`WaitForCommand` (lines 72-78). -/
def run (T : String) : List Ev → RunState → RunState
  | [], s => s
  | .feed :: es, s => run T es { s with bag := bagIncr s.bag T }
  | .poll i :: es, s =>
    if i < s.done.length ∧ s.done.getD i false = false then
      match poll s.bag T with
      | .success b2 => run T es { bag := b2, done := s.done.set i true }
      | _ => run T es s
    else run T es s

/-- Bags reachable when only the token `T` is ever fed: empty, or a single
entry for `T` with a positive count. -/
def TBag (T : String) (b : Bag) : Prop :=
  b = [] ∨ ∃ c : Int, 0 < c ∧ b = [(T, c)]

/-- Remaining occurrences of `T` in the bag, as a natural number. -/
def tcount (T : String) (b : Bag) : Nat :=
  ((bagFind b T).getD 0).toNat

end faircmd_split

-- Supporting lemmas shared by the claim theorems.

/-- Finding the first occurrence: when `exp` is in the queue,
`erase_up_to_expected` drops exactly the prefix before the first occurrence
together with the occurrence itself. -/
theorem erase_up_to_expected_spec (q : List String) (exp : String)
    (hmem : exp ∈ q) :
    ∃ pre post, q = pre ++ exp :: post ∧ exp ∉ pre ∧
      faircmd_hybrid.erase_up_to_expected q exp = some post := by
  induction q with
  | nil => cases hmem
  | cons h t ih =>
    by_cases hh : h = exp
    · exact ⟨[], t, by simp [hh], by simp,
        by simp [faircmd_hybrid.erase_up_to_expected, hh]⟩
    · have hmem' : exp ∈ t := by
        cases hmem with
        | head => exact absurd rfl hh
        | tail _ hm => exact hm
      obtain ⟨pre, post, hq, hpre, he⟩ := ih hmem'
      refine ⟨h :: pre, post, by simp [hq], ?_, ?_⟩
      · simp only [List.mem_cons, not_or]
        exact ⟨fun hc => hh hc.symm, hpre⟩
      · simpa [faircmd_hybrid.erase_up_to_expected, hh] using he

theorem bagFind_bagIncr_self (b : faircmd_split.Bag) (t : String) :
    faircmd_split.bagFind (faircmd_split.bagIncr b t) t
      = some ((faircmd_split.bagFind b t).getD 0 + 1) := by
  induction b with
  | nil => simp [faircmd_split.bagIncr, faircmd_split.bagFind]
  | cons kv rest ih =>
    obtain ⟨k, c⟩ := kv
    by_cases hk : k = t
    · simp [faircmd_split.bagIncr, faircmd_split.bagFind, hk]
    · simp [faircmd_split.bagIncr, faircmd_split.bagFind, hk, ih]

theorem bagFind_bagIncr_ne (b : faircmd_split.Bag) (s t : String)
    (h : s ≠ t) :
    faircmd_split.bagFind (faircmd_split.bagIncr b s) t
      = faircmd_split.bagFind b t := by
  induction b with
  | nil => simp [faircmd_split.bagIncr, faircmd_split.bagFind, h]
  | cons kv rest ih =>
    obtain ⟨k, c⟩ := kv
    by_cases hk : k = s
    · subst hk
      simp [faircmd_split.bagIncr, faircmd_split.bagFind, h]
    · by_cases hkt : k = t
      · simp [faircmd_split.bagIncr, faircmd_split.bagFind, hk, hkt, Ne.symm h]
      · simp [faircmd_split.bagIncr, faircmd_split.bagFind, hk, hkt, ih]

/-- Counting view of `preload`: the bag built by folding `bagIncr` over a
token list holds each token with its multiplicity in the list. -/
theorem bagFind_foldl_bagIncr (l : List String) (b : faircmd_split.Bag)
    (t : String) :
    faircmd_split.bagFind (l.foldl faircmd_split.bagIncr b) t
      = if t ∈ l
        then some ((faircmd_split.bagFind b t).getD 0 + (l.count t : Int))
        else faircmd_split.bagFind b t := by
  induction l generalizing b with
  | nil => simp
  | cons x xs ih =>
    by_cases hx : x = t
    · subst hx
      rw [List.foldl_cons, ih]
      by_cases hmem : x ∈ xs
      · simp [hmem, bagFind_bagIncr_self, List.count_cons]
        ring
      · simp [hmem, bagFind_bagIncr_self, List.count_cons,
          List.count_eq_zero.mpr hmem]
    · rw [List.foldl_cons, ih]
      by_cases hmem : t ∈ xs
      · simp [hmem, hx, bagFind_bagIncr_ne _ _ _ hx, List.count_cons,
          Ne.symm hx]
      · simp [hmem, hx, Ne.symm hx, bagFind_bagIncr_ne _ _ _ hx,
          List.count_cons]

theorem bagFind_preload (l : List String) (t : String) :
    faircmd_split.bagFind (faircmd_split.preload l) t
      = if t ∈ l then some ((l.count t : Int)) else none := by
  rw [faircmd_split.preload, bagFind_foldl_bagIncr]
  simp [faircmd_split.bagFind]

/-- Success of a presence poll depends only on membership in the preloaded
multiset. -/
theorem split_poll_preload_success (l : List String) (t : String) :
    (∃ b2, faircmd_split.poll (faircmd_split.preload l) t = .success b2)
      ↔ t ∈ l := by
  constructor
  · rintro ⟨b2, hb⟩
    by_contra hmem
    simp [faircmd_split.poll, bagFind_preload, hmem] at hb
  · intro hmem
    have hc : 0 < (l.count t : Int) := by
      exact_mod_cast List.count_pos_iff.mpr hmem
    refine ⟨faircmd_split.bagDecEra (faircmd_split.preload l) t, ?_⟩
    simp [faircmd_split.poll, bagFind_preload, hmem, hc]

theorem bagFind_eq_none_of_not_mem (b : faircmd_split.Bag) (k : String)
    (h : k ∉ b.map Prod.fst) : faircmd_split.bagFind b k = none := by
  induction b with
  | nil => rfl
  | cons kv rest ih =>
    obtain ⟨k0, c⟩ := kv
    simp only [List.map_cons, List.mem_cons, not_or] at h
    have hne : ¬k0 = k := fun hc => h.1 hc.symm
    simp [faircmd_split.bagFind, hne, ih h.2]

/-- Effect of the decrement-and-erase mutation on the matched key, for a bag
whose keys are distinct (as in `unordered_map`): the count drops by one and
the entry disappears when it reaches zero. -/
theorem bagFind_bagDecEra (b : faircmd_split.Bag) (exp : String) (c : Int)
    (hf : faircmd_split.bagFind b exp = some c)
    (hnd : (b.map Prod.fst).Nodup) :
    faircmd_split.bagFind (faircmd_split.bagDecEra b exp) exp
      = if c - 1 = 0 then none else some (c - 1) := by
  induction b with
  | nil => simp [faircmd_split.bagFind] at hf
  | cons kv rest ih =>
    obtain ⟨k, cc⟩ := kv
    simp only [List.map_cons, List.nodup_cons] at hnd
    by_cases hk : k = exp
    · subst hk
      obtain rfl : cc = c := by simpa [faircmd_split.bagFind] using hf
      by_cases hz : cc - 1 = 0
      · simp [faircmd_split.bagDecEra, hz,
          bagFind_eq_none_of_not_mem rest k hnd.1]
      · simp [faircmd_split.bagDecEra, hz, faircmd_split.bagFind]
    · simp only [faircmd_split.bagFind, if_neg hk] at hf
      simp [faircmd_split.bagDecEra, hk, faircmd_split.bagFind, ih hf hnd.2]

-- Claim theorems follow the definitions.

/-- Claim C2: loose wait (hybrid backend): whenever the queue contains the
expected token, the loose poll succeeds, removing the first occurrence and
every token before it, and appends only the matched token to the
consumption log; an empty queue makes the wait idle (re-loop with its
budget untouched) rather than fail. -/
theorem C2_loose_wait (q log : List String) (exp : String) (r : Int)
    (rest : List (List String × List String)) :
    (exp ∈ q → ∃ pre post, q = pre ++ exp :: post ∧ exp ∉ pre ∧
        faircmd_hybrid.loosePoll q log exp = .success (post, log ++ [exp]))
    ∧ faircmd_hybrid.WaitForCommandLooseTrace exp r (([], log) :: rest)
        = faircmd_hybrid.WaitForCommandLooseTrace exp r rest := by
  constructor
  · intro hmem
    cases q with
    | nil => cases hmem
    | cons h t =>
      by_cases hh : h = exp
      · subst hh
        exact ⟨[], t, by simp, by simp,
          by simp [faircmd_hybrid.loosePoll]⟩
      · obtain ⟨pre, post, hq, hpre, he⟩ :=
          erase_up_to_expected_spec (h :: t) exp hmem
        exact ⟨pre, post, hq, hpre,
          by simp [faircmd_hybrid.loosePoll, hh, he]⟩
  · simp [faircmd_hybrid.WaitForCommandLooseTrace, faircmd_hybrid.loosePoll]

/-- Claim C2 witness: on the queue [x, y, hello] a loose wait for "hello"
succeeds, discards x and y, and logs only "hello". -/
theorem C2_loose_wait_witness :
    ∃ pre post, ["x", "y", "hello"] = pre ++ "hello" :: post
      ∧ "hello" ∉ pre
      ∧ faircmd_hybrid.loosePoll ["x", "y", "hello"] [] "hello"
          = .success (post, [] ++ ["hello"]) := by
  have h := (C2_loose_wait ["x", "y", "hello"] [] "hello" 1 []).1
  exact h (by decide)

/-- Claim C3: presence wait (split backend): a poll succeeds iff the
expected token's remaining count is positive; on success the count is
decremented and the entry removed when it reaches zero; preloading
[a, b, a] allows exactly two successful waits for a; and preloading any
permutation of a token list yields the same success/failure of an
individual match. -/
theorem C3_presence_wait (b : faircmd_split.Bag) (exp : String) :
    ((∃ b2, faircmd_split.poll b exp = .success b2)
        ↔ ∃ c, faircmd_split.bagFind b exp = some c ∧ 0 < c)
    ∧ (∀ c, faircmd_split.bagFind b exp = some c → 0 < c →
        (b.map Prod.fst).Nodup →
          faircmd_split.poll b exp = .success (faircmd_split.bagDecEra b exp)
          ∧ faircmd_split.bagFind (faircmd_split.bagDecEra b exp) exp
              = (if c - 1 = 0 then none else some (c - 1)))
    ∧ (∃ b1 b2,
        faircmd_split.poll (faircmd_split.preload ["a", "b", "a"]) "a"
            = .success b1
        ∧ faircmd_split.poll b1 "a" = .success b2
        ∧ faircmd_split.poll b2 "a" = .mismatch)
    ∧ (∀ l l2 t, l.Perm l2 →
        ((∃ x, faircmd_split.poll (faircmd_split.preload l) t = .success x)
          ↔ ∃ x, faircmd_split.poll (faircmd_split.preload l2) t = .success x)) := by
  refine ⟨?_, ?_, ?_, ?_⟩
  · constructor
    · rintro ⟨b2, hb⟩
      cases hf : faircmd_split.bagFind b exp with
      | none => simp [faircmd_split.poll, hf] at hb
      | some c =>
        by_cases hc : 0 < c
        · exact ⟨c, rfl, hc⟩
        · simp [faircmd_split.poll, hf, hc] at hb
    · rintro ⟨c, hf, hc⟩
      refine ⟨faircmd_split.bagDecEra b exp, ?_⟩
      simp [faircmd_split.poll, hf, hc]
  · intro c hf hc hnd
    exact ⟨by simp [faircmd_split.poll, hf, hc],
      bagFind_bagDecEra b exp c hf hnd⟩
  · exact ⟨[("a", 1), ("b", 1)], [("b", 1)], by decide, by decide, by decide⟩
  · intro l l2 t hp
    rw [split_poll_preload_success, split_poll_preload_success]
    exact hp.mem_iff

/-- Claim C4 counterexample: a poll that finds the store empty does consume
the fail budget in the split backend: with a budget of 1, one poll of the
empty bag already fails, while the machine backend on an empty queue keeps
looping with its counter untouched.  This refutes the claim's "identical
across all three backends" budget rule. -/
theorem C4_counterexample :
    faircmd_split.WaitForCommandTrace "a" 1 [[]] = .failed
    ∧ faircmd_machine.WaitForCommandTrace "a" 1 [[]] = .pending 1 := by
  exact ⟨rfl, rfl⟩

/-- Claim C4 (amended): fail-budget accounting in the machine and hybrid
backends: a poll that finds the store empty never decrements the
remaining-attempts counter (the wait blocks or sleeps and re-loops), the
counter is decremented only on a non-empty mismatching poll, and the wait
fails exactly when the decremented counter reaches zero; the split backend
instead decrements the counter on every unsuccessful poll, including when
the bag is empty. -/
theorem C4_fail_budget (exp h : String) (t log : List String) (r : Int)
    (qrest : List (List String))
    (hrest : List (List String × List String))
    (b : faircmd_split.Bag) (srest : List faircmd_split.Bag) :
    (faircmd_machine.WaitForCommandTrace exp r ([] :: qrest)
        = faircmd_machine.WaitForCommandTrace exp r qrest)
    ∧ (faircmd_hybrid.WaitForCommandTrace exp r (([], log) :: hrest)
        = faircmd_hybrid.WaitForCommandTrace exp r hrest)
    ∧ (h ≠ exp →
        faircmd_machine.WaitForCommandTrace exp r ((h :: t) :: qrest)
          = if r - 1 ≤ 0 then .failed
            else faircmd_machine.WaitForCommandTrace exp (r - 1) qrest)
    ∧ (h ≠ exp →
        faircmd_hybrid.WaitForCommandTrace exp r ((h :: t, log) :: hrest)
          = if r - 1 ≤ 0 then .failed
            else faircmd_hybrid.WaitForCommandTrace exp (r - 1) hrest)
    ∧ (faircmd_split.poll b exp = .mismatch →
        faircmd_split.WaitForCommandTrace exp r (b :: srest)
          = if r - 1 ≤ 0 then .failed
            else faircmd_split.WaitForCommandTrace exp (r - 1) srest)
    ∧ (faircmd_split.WaitForCommandTrace exp r ([] :: srest)
        = if r - 1 ≤ 0 then .failed
          else faircmd_split.WaitForCommandTrace exp (r - 1) srest) := by
  refine ⟨?_, ?_, ?_, ?_, ?_, ?_⟩
  · simp [faircmd_machine.WaitForCommandTrace, faircmd_machine.poll]
  · simp [faircmd_hybrid.WaitForCommandTrace, faircmd_hybrid.poll]
  · intro hne
    simp [faircmd_machine.WaitForCommandTrace, faircmd_machine.poll, hne]
  · intro hne
    simp [faircmd_hybrid.WaitForCommandTrace, faircmd_hybrid.poll, hne]
  · intro hp
    simp [faircmd_split.WaitForCommandTrace, hp]
  · simp [faircmd_split.WaitForCommandTrace, faircmd_split.poll,
      faircmd_split.bagFind]

/-- Claim C1: strict wait (machine and hybrid backends): a poll succeeds iff
the expected token equals the head of the queue; on success exactly the head
is popped, and in the hybrid backend the matched token is appended to the
consumption log; a token at any position other than the head never produces
a match. -/
theorem C1_strict_wait (q log : List String) (exp : String) :
    ((∃ t, faircmd_machine.poll q exp = .success t) ↔ q.head? = some exp)
    ∧ (∀ t, faircmd_machine.poll (exp :: t) exp = .success t)
    ∧ ((∃ s, faircmd_hybrid.poll q log exp = .success s) ↔ q.head? = some exp)
    ∧ (∀ t, faircmd_hybrid.poll (exp :: t) log exp = .success (t, log ++ [exp])) := by
  refine ⟨?_, ?_, ?_, ?_⟩
  · constructor
    · rintro ⟨t, ht⟩
      cases q with
      | nil => simp [faircmd_machine.poll] at ht
      | cons h rest =>
        by_cases hh : h = exp
        · simp [hh]
        · simp [faircmd_machine.poll, hh] at ht
    · intro hq
      cases q with
      | nil => simp at hq
      | cons h rest =>
        simp at hq
        exact ⟨rest, by simp [faircmd_machine.poll, hq]⟩
  · intro t
    simp [faircmd_machine.poll]
  · constructor
    · rintro ⟨s, hs⟩
      cases q with
      | nil => simp [faircmd_hybrid.poll] at hs
      | cons h rest =>
        by_cases hh : h = exp
        · simp [hh]
        · simp [faircmd_hybrid.poll, hh] at hs
    · intro hq
      cases q with
      | nil => simp at hq
      | cons h rest =>
        simp at hq
        exact ⟨(rest, log ++ [h]), by simp [faircmd_hybrid.poll, hq]⟩
  · intro t
    simp [faircmd_hybrid.poll]

/-- Claim C5: the replay emitter's escaping does not survive re-parsing
under C-family escape rules: the token with bytes [0x01, 0x61] ("\x01"
followed by the letter a) is emitted as the literal "\x01a", which a
C/C++ lexer reads as the single hex escape of value 0x1A (hex escapes
consume every following hex digit), not as the original two bytes.  This
contradicts the emitter's documented purpose of recreating the same
command stream. -/
theorem C5_replay_roundtrip_failure :
    faircmd_hybrid.esc [1, 97] = "\"\\x01a\"".data
    ∧ faircmd_hybrid.emit_cpp_preload [[1, 97]]
        = "faircmd_hybrid::preload(\x7b".data ++ "\"\\x01a\"".data
            ++ "\x7d);\n".data
    ∧ faircmd_hybrid.unescapeCpp ("\"\\x01a\"".data) = some [26]
    ∧ ([26] : List Nat) ≠ [1, 97] := by
  refine ⟨by decide, by decide, by decide, by decide⟩

/-- Claim C6 counterexample: the hybrid backend writes nothing to stderr
before raising its failure (its `WaitForCommand` builds the exception
message and throws, with no diagnostic write), while the machine backend
does; so "diagnostic detail is written to the secondary diagnostics
channel (stderr) before the failure is raised" does not hold in every
backend. -/
theorem C6_counterexample :
    faircmd_hybrid.error_cerr = ""
    ∧ faircmd_machine.error_cerr "w" "go" "stop" 3 ≠ "" := by
  exact ⟨rfl, by decide⟩

/-- Claim C6 (amended): when the fail budget is exhausted, the machine and
split backends write a diagnostic to stderr carrying the caller id, the
expected token, the observed head (machine) or its absence (split), and
the configured fail budget, and then throw; the hybrid backend throws an
exception whose message carries the caller id, the expected token and the
head, but writes nothing to stderr first and does not include the budget;
no backend's failed wait returns silently (each ends in a throw with a
non-empty message). -/
theorem C6_failure_reporting (who exp front : String) (budget : Int) :
    (∃ a b, faircmd_machine.error_cerr who exp front budget = a ++ who ++ b)
    ∧ (∃ a b, faircmd_machine.error_cerr who exp front budget = a ++ exp ++ b)
    ∧ (∃ a b, faircmd_machine.error_cerr who exp front budget = a ++ front ++ b)
    ∧ (∃ a b, faircmd_machine.error_cerr who exp front budget
          = a ++ toString budget ++ b)
    ∧ faircmd_machine.error_thrown ≠ ""
    ∧ (∃ a b, faircmd_split.error_cerr who exp budget = a ++ who ++ b)
    ∧ (∃ a b, faircmd_split.error_cerr who exp budget = a ++ exp ++ b)
    ∧ (∃ a b, faircmd_split.error_cerr who exp budget = a ++ toString budget ++ b)
    ∧ faircmd_split.error_thrown ≠ ""
    ∧ (∃ a b, faircmd_hybrid.error_thrown who exp front = a ++ who ++ b)
    ∧ (∃ a b, faircmd_hybrid.error_thrown who exp front = a ++ exp ++ b)
    ∧ (∃ a b, faircmd_hybrid.error_thrown who exp front = a ++ front ++ b)
    ∧ faircmd_hybrid.error_cerr = "" := by
  refine ⟨⟨"[faircmd][ERROR] ",
      " expected \"" ++ exp ++ "\" but saw \"" ++ front
        ++ "\"; giving up after " ++ toString budget ++ " waits\n", ?_⟩,
    ⟨"[faircmd][ERROR] " ++ who ++ " expected \"",
      "\" but saw \"" ++ front ++ "\"; giving up after " ++ toString budget
        ++ " waits\n", ?_⟩,
    ⟨"[faircmd][ERROR] " ++ who ++ " expected \"" ++ exp ++ "\" but saw \"",
      "\"; giving up after " ++ toString budget ++ " waits\n", ?_⟩,
    ⟨"[faircmd][ERROR] " ++ who ++ " expected \"" ++ exp ++ "\" but saw \""
      ++ front ++ "\"; giving up after ", " waits\n", ?_⟩,
    by decide,
    ⟨"[faircmd-split][ERROR] ",
      " expected \"" ++ exp ++ "\" but it was not present; giving up after "
        ++ toString budget ++ " waits\n", ?_⟩,
    ⟨"[faircmd-split][ERROR] " ++ who ++ " expected \"",
      "\" but it was not present; giving up after " ++ toString budget
        ++ " waits\n", ?_⟩,
    ⟨"[faircmd-split][ERROR] " ++ who ++ " expected \"" ++ exp
      ++ "\" but it was not present; giving up after ", " waits\n", ?_⟩,
    by decide,
    ⟨"WaitForCommand(",
      "): expected \"" ++ exp ++ "\" but got \"" ++ front ++ "\"", ?_⟩,
    ⟨"WaitForCommand(" ++ who ++ "): expected \"",
      "\" but got \"" ++ front ++ "\"", ?_⟩,
    ⟨"WaitForCommand(" ++ who ++ "): expected \"" ++ exp ++ "\" but got \"",
      "\"", ?_⟩,
    rfl⟩ <;>
  simp [faircmd_machine.error_cerr, faircmd_split.error_cerr,
    faircmd_hybrid.error_thrown, String.append_assoc]

/-- Claim C7: feeder lifecycle idempotence (hybrid backend): starting the
stdin pumper twice has the same effect on the whole coordination state as
starting it once, stopping twice the same as stopping once; start is a
no-op when already running, stop is a no-op when not running, and neither
call touches the token store. -/
theorem C7_pumper_idempotent (s : faircmd_hybrid.PumperState) :
    faircmd_hybrid.start_stdin_pumper (faircmd_hybrid.start_stdin_pumper s)
        = faircmd_hybrid.start_stdin_pumper s
    ∧ faircmd_hybrid.stop_stdin_pumper (faircmd_hybrid.stop_stdin_pumper s)
        = faircmd_hybrid.stop_stdin_pumper s
    ∧ (s.running = true → faircmd_hybrid.start_stdin_pumper s = s)
    ∧ (s.running = false → faircmd_hybrid.stop_stdin_pumper s = s)
    ∧ (faircmd_hybrid.start_stdin_pumper s).q = s.q
    ∧ (faircmd_hybrid.stop_stdin_pumper s).q = s.q := by
  obtain ⟨r, th, n, q⟩ := s
  cases r <;>
    simp [faircmd_hybrid.start_stdin_pumper, faircmd_hybrid.stop_stdin_pumper]

/-- Claim C8 counterexample: the machine backend's preload does not
normalize a null item to the empty string: it hands the null pointer to
the `std::string` constructor unchecked, so a null item has no defined
result, while the hybrid backend's preload maps the same null item to the
empty token. -/
theorem C8_counterexample :
    faircmd_machine.preloadTokens [none] = none
    ∧ faircmd_machine.preloadTokens [none] ≠ some [""]
    ∧ faircmd_hybrid.preloadTokens [none] = [""] := by
  exact ⟨rfl, by decide, rfl⟩

/-- Claim C8 (amended): every wait entry point normalizes a null expected
token to the empty string, the hybrid preload normalizes null items to the
empty token, and an empty expected token is matched literally like any
other token; the machine backend's preload, however, does not normalize: a
null item there has no defined result. -/
theorem C8_null_normalization (items : List (Option String)) (s : String)
    (t log : List String) :
    expectedOrEmpty none = ""
    ∧ expectedOrEmpty (some s) = s
    ∧ faircmd_hybrid.preloadTokens (none :: items)
        = "" :: faircmd_hybrid.preloadTokens items
    ∧ faircmd_machine.preloadTokens (none :: items) = none
    ∧ faircmd_machine.poll ("" :: t) "" = .success t
    ∧ faircmd_hybrid.poll ("" :: t) log "" = .success (t, log ++ [""]) := by
  refine ⟨rfl, rfl, rfl, rfl, ?_, ?_⟩
  · simp [faircmd_machine.poll]
  · simp [faircmd_hybrid.poll]

/-- Claim C10: the split backend's loose wait never touches the bag or any
other shared state: in every outcome (success, exhausted budget, or closed
stream) the shared state comes back unchanged, and it succeeds iff some
line of standard input equals the expected token, reached before the fail
budget runs out (the first occurrence at line index i is reached iff i = 0
or i < the budget). -/
theorem C10_split_loose_frame (st : faircmd_split.SharedState)
    (exp : String) (r : Int) (stdin : List String) :
    (faircmd_split.WaitForCommandLoose st exp r stdin).2 = st
    ∧ ((faircmd_split.WaitForCommandLoose st exp r stdin).1 = .success ↔
        ∃ pre post, stdin = pre ++ exp :: post ∧ exp ∉ pre
          ∧ (pre = [] ∨ (pre.length : Int) < r)) := by
  induction stdin generalizing r with
  | nil =>
    refine ⟨rfl, ?_⟩
    constructor
    · intro h
      simp [faircmd_split.WaitForCommandLoose] at h
    · rintro ⟨pre, post, h, -, -⟩
      have hlen := congrArg List.length h
      simp only [List.length_nil, List.length_append, List.length_cons] at hlen
      omega
  | cons line rest ih =>
    by_cases hl : line = exp
    · subst hl
      refine ⟨by simp [faircmd_split.WaitForCommandLoose], ?_⟩
      simp only [faircmd_split.WaitForCommandLoose, if_pos rfl]
      constructor
      · intro _
        exact ⟨[], rest, by simp, by simp, Or.inl rfl⟩
      · intro _
        rfl
    · by_cases hr : r - 1 ≤ 0
      · refine ⟨by simp [faircmd_split.WaitForCommandLoose, hl, hr], ?_⟩
        simp only [faircmd_split.WaitForCommandLoose, if_neg hl, if_pos hr]
        constructor
        · intro h
          cases h
        · rintro ⟨pre, post, hdec, hnpre, hcond⟩
          cases pre with
          | nil =>
            simp at hdec
            exact (hl hdec.1).elim
          | cons p pre2 =>
            rcases hcond with hcond | hcond
            · cases hcond
            · simp only [List.length_cons] at hcond
              omega
      · have IH := ih (r - 1)
        refine ⟨?_, ?_⟩
        · simpa only [faircmd_split.WaitForCommandLoose, if_neg hl,
            if_neg hr] using IH.1
        · simp only [faircmd_split.WaitForCommandLoose, if_neg hl, if_neg hr]
          rw [IH.2]
          constructor
          · rintro ⟨pre, post, hdec, hnpre, hcond⟩
            refine ⟨line :: pre, post, by simp [hdec], ?_, Or.inr ?_⟩
            · simp only [List.mem_cons, not_or]
              exact ⟨fun hc => hl hc.symm, hnpre⟩
            · simp only [List.length_cons]
              rcases hcond with hcond | hcond
              · subst hcond
                simp only [List.length_nil]
                omega
              · omega
          · rintro ⟨pre, post, hdec, hnpre, hcond⟩
            cases pre with
            | nil =>
              simp at hdec
              exact absurd hdec.1 hl
            | cons p pre2 =>
              simp only [List.cons_append, List.cons.injEq] at hdec
              simp only [List.mem_cons, not_or] at hnpre
              refine ⟨pre2, post, hdec.2, hnpre.2, Or.inr ?_⟩
              rcases hcond with hcond | hcond
              · cases hcond
              · simp only [List.length_cons] at hcond
                omega

theorem countTrue_replicate_false (n : Nat) :
    countTrue (List.replicate n false) = 0 := by
  induction n with
  | zero => rfl
  | succ m ih => simpa [List.replicate_succ, countTrue] using ih

theorem countTrue_le_length (l : List Bool) : countTrue l ≤ l.length := by
  induction l with
  | nil => exact Nat.le_refl 0
  | cons b t ih => cases b <;> simp [countTrue] <;> omega

theorem countTrue_set_true (l : List Bool) (i : Nat) (hi : i < l.length)
    (hf : l.getD i false = false) :
    countTrue (l.set i true) = countTrue l + 1 := by
  induction l generalizing i with
  | nil => simp at hi
  | cons b t ih =>
    cases i with
    | zero =>
      simp only [List.getD_cons_zero] at hf
      subst hf
      simp [List.set, countTrue]
    | succ j =>
      simp only [List.length_cons, Nat.succ_lt_succ_iff] at hi
      simp only [List.getD_cons_succ] at hf
      cases b <;> simp [List.set, countTrue, ih j hi hf]

theorem countTrue_eq_length_iff (l : List Bool) :
    countTrue l = l.length ↔ l = List.replicate l.length true := by
  induction l with
  | nil => simp [countTrue]
  | cons b t ih =>
    cases b with
    | true =>
      simp only [countTrue, List.length_cons, Nat.add_right_cancel_iff,
        List.replicate_succ, List.cons.injEq, true_and]
      exact ih
    | false =>
      have hle := countTrue_le_length t
      simp only [countTrue, List.length_cons, List.replicate_succ]
      constructor
      · intro h
        exact absurd h (by omega)
      · intro h
        injection h with h1 h2
        exact Bool.noConfusion h1

/-- Inversion of a successful hybrid strict poll: the queue began with the
expected token and the log gained exactly it. -/
theorem hybrid_poll_success_inv (q log : List String) (exp : String)
    (q2 log2 : List String)
    (h : faircmd_hybrid.poll q log exp = .success (q2, log2)) :
    q = exp :: q2 ∧ log2 = log ++ [exp] := by
  cases q with
  | nil => simp [faircmd_hybrid.poll] at h
  | cons a t =>
    by_cases ha : a = exp
    · subst ha
      simp only [faircmd_hybrid.poll, if_pos rfl, if_true,
        PollOut.success.injEq, Prod.mk.injEq] at h
      exact ⟨by rw [h.1], h.2.symm⟩
    · simp [faircmd_hybrid.poll, ha] at h

/-- Inversion of a successful split presence poll: the expected token was
present with a positive count and the bag was decremented. -/
theorem split_poll_success_inv (b : faircmd_split.Bag) (exp : String)
    (b2 : faircmd_split.Bag)
    (h : faircmd_split.poll b exp = .success b2) :
    ∃ c, faircmd_split.bagFind b exp = some c ∧ 0 < c
      ∧ b2 = faircmd_split.bagDecEra b exp := by
  cases hf : faircmd_split.bagFind b exp with
  | none => simp [faircmd_split.poll, hf] at h
  | some c =>
    by_cases hc : 0 < c
    · refine ⟨c, rfl, hc, ?_⟩
      simp only [faircmd_split.poll, hf, if_pos hc] at h
      cases h
      rfl
    · simp [faircmd_split.poll, hf, hc] at h

/-- Conservation along any interleaving against the hybrid store, when
only the token `T` is ever fed: the queue stays all-`T`, and finished
waiters plus queued tokens equal the initial ones plus the feeds. -/
theorem hybrid_run_inv (T : String) (es : List Ev)
    (s : faircmd_hybrid.RunState) (hT : ∀ x ∈ s.q, x = T) :
    (∀ x ∈ (faircmd_hybrid.run T es s).q, x = T)
    ∧ countTrue (faircmd_hybrid.run T es s).done
        + (faircmd_hybrid.run T es s).q.length
        = countTrue s.done + s.q.length + countFeeds es
    ∧ (faircmd_hybrid.run T es s).done.length = s.done.length := by
  induction es generalizing s with
  | nil => exact ⟨hT, by simp [faircmd_hybrid.run, countFeeds], rfl⟩
  | cons e es ih =>
    cases e with
    | feed =>
      simp only [faircmd_hybrid.run]
      have hT2 : ∀ x ∈ s.q ++ [T], x = T := by
        intro x hx
        rcases List.mem_append.mp hx with hx | hx
        · exact hT x hx
        · simpa using hx
      have H := ih { s with q := s.q ++ [T] } hT2
      refine ⟨H.1, ?_, H.2.2⟩
      have heq := H.2.1
      simp only [List.length_append, List.length_cons, List.length_nil,
        countFeeds] at heq ⊢
      omega
    | poll i =>
      simp only [faircmd_hybrid.run]
      by_cases hc : i < s.done.length ∧ s.done.getD i false = false
      · rw [if_pos hc]
        cases hpoll : faircmd_hybrid.poll s.q s.log T with
        | success p =>
          obtain ⟨q2, log2⟩ := p
          obtain ⟨hq, hlog⟩ := hybrid_poll_success_inv s.q s.log T q2 log2 hpoll
          have hT2 : ∀ x ∈ q2, x = T := fun x hx =>
            hT x (by rw [hq]; exact List.mem_cons_of_mem T hx)
          have H := ih { q := q2, log := log2, done := s.done.set i true } hT2
          refine ⟨H.1, ?_, ?_⟩
          · have hcnt := countTrue_set_true s.done i hc.1 hc.2
            have heq := H.2.1
            simp only [countFeeds] at heq ⊢
            simp only [hcnt] at heq
            rw [hq]
            simp only [List.length_cons]
            omega
          · rw [H.2.2]
            exact List.length_set s.done i true
        | empty =>
          have H := ih s hT
          simpa [countFeeds] using H
        | mismatch =>
          have H := ih s hT
          simpa [countFeeds] using H
      · rw [if_neg hc]
        have H := ih s hT
        simpa [countFeeds] using H

/-- Conservation along any interleaving against the split store, when only
the token `T` is ever fed: the bag stays a (possibly absent) single entry
for `T`, and finished waiters plus the remaining count of `T` equal the
initial ones plus the feeds. -/
theorem split_run_inv (T : String) (es : List Ev)
    (s : faircmd_split.RunState) (hs : faircmd_split.TBag T s.bag) :
    faircmd_split.TBag T (faircmd_split.run T es s).bag
    ∧ countTrue (faircmd_split.run T es s).done
        + faircmd_split.tcount T (faircmd_split.run T es s).bag
        = countTrue s.done + faircmd_split.tcount T s.bag + countFeeds es
    ∧ (faircmd_split.run T es s).done.length = s.done.length := by
  induction es generalizing s with
  | nil => exact ⟨hs, by simp [faircmd_split.run, countFeeds], rfl⟩
  | cons e es ih =>
    cases e with
    | feed =>
      simp only [faircmd_split.run]
      have hshape : faircmd_split.TBag T (faircmd_split.bagIncr s.bag T) := by
        rcases hs with hb | ⟨c, hc, hb⟩
        · rw [hb]
          exact Or.inr ⟨1, by omega, rfl⟩
        · rw [hb]
          exact Or.inr ⟨c + 1, by omega, by simp [faircmd_split.bagIncr]⟩
      have htc : faircmd_split.tcount T (faircmd_split.bagIncr s.bag T)
          = faircmd_split.tcount T s.bag + 1 := by
        rcases hs with hb | ⟨c, hc, hb⟩
        · rw [hb]
          simp [faircmd_split.bagIncr, faircmd_split.tcount,
            faircmd_split.bagFind]
        · rw [hb]
          simp only [faircmd_split.bagIncr, if_pos rfl, if_true,
            faircmd_split.tcount, faircmd_split.bagFind, Option.getD_some]
          omega
      have H := ih { s with bag := faircmd_split.bagIncr s.bag T } hshape
      refine ⟨H.1, ?_, H.2.2⟩
      have heq := H.2.1
      simp only [countFeeds] at heq ⊢
      rw [htc] at heq
      omega
    | poll i =>
      simp only [faircmd_split.run]
      by_cases hcnd : i < s.done.length ∧ s.done.getD i false = false
      · rw [if_pos hcnd]
        cases hpoll : faircmd_split.poll s.bag T with
        | success b2 =>
          obtain ⟨c, hf, hcpos, hb2⟩ := split_poll_success_inv s.bag T b2 hpoll
          rcases hs with hb | ⟨c0, hc0, hb⟩
          · rw [hb] at hf
            simp [faircmd_split.bagFind] at hf
          · have hdec : faircmd_split.bagDecEra s.bag T
                = if c0 - 1 = 0 then [] else [(T, c0 - 1)] := by
              rw [hb]
              simp [faircmd_split.bagDecEra]
            have hshape2 : faircmd_split.TBag T b2 := by
              rw [hb2, hdec]
              by_cases hz : c0 - 1 = 0
              · rw [if_pos hz]
                exact Or.inl rfl
              · rw [if_neg hz]
                exact Or.inr ⟨c0 - 1, by omega, rfl⟩
            have htc : faircmd_split.tcount T b2
                = faircmd_split.tcount T s.bag - 1 := by
              rw [hb2, hdec, hb]
              by_cases hz : c0 - 1 = 0
              · rw [if_pos hz]
                simp only [faircmd_split.tcount, faircmd_split.bagFind,
                  if_pos rfl, if_true, Option.getD_some, Option.getD_none]
                omega
              · rw [if_neg hz]
                simp only [faircmd_split.tcount, faircmd_split.bagFind,
                  if_pos rfl, if_true, Option.getD_some]
                omega
            have htcpos : 0 < faircmd_split.tcount T s.bag := by
              rw [hb]
              simp only [faircmd_split.tcount, faircmd_split.bagFind,
                if_pos rfl, if_true, Option.getD_some]
              omega
            have H := ih { bag := b2, done := s.done.set i true } hshape2
            refine ⟨H.1, ?_, ?_⟩
            · have hcnt := countTrue_set_true s.done i hcnd.1 hcnd.2
              have heq := H.2.1
              simp only [countFeeds] at heq ⊢
              simp only [hcnt, htc] at heq
              omega
            · rw [H.2.2]
              exact List.length_set s.done i true
        | empty =>
          have H := ih s hs
          simpa [countFeeds] using H
        | mismatch =>
          have H := ih s hs
          simpa [countFeeds] using H
      · rw [if_neg hcnd]
        have H := ih s hs
        simpa [countFeeds] using H

/-- Claim C9: concurrent single-consumption: along every interleaving of
producer feeds and consumer polls in which exactly N occurrences of the
contended token T are fed to N waiters (hybrid queue or split bag), the
store is emptied of T exactly when all N waits have succeeded, and in that
case every one of the N waiters has consumed exactly once. -/
theorem C9_concurrent_single_consumption (T : String) (N : Nat)
    (es : List Ev) (hfeeds : countFeeds es = N) :
    ((faircmd_hybrid.run T es ⟨[], [], List.replicate N false⟩).q = []
      ↔ countTrue (faircmd_hybrid.run T es ⟨[], [], List.replicate N false⟩).done = N)
    ∧ (countTrue (faircmd_hybrid.run T es ⟨[], [], List.replicate N false⟩).done = N
        → (faircmd_hybrid.run T es ⟨[], [], List.replicate N false⟩).done
            = List.replicate N true)
    ∧ ((faircmd_split.run T es ⟨[], List.replicate N false⟩).bag = []
      ↔ countTrue (faircmd_split.run T es ⟨[], List.replicate N false⟩).done = N)
    ∧ (countTrue (faircmd_split.run T es ⟨[], List.replicate N false⟩).done = N
        → (faircmd_split.run T es ⟨[], List.replicate N false⟩).done
            = List.replicate N true) := by
  have Hh := hybrid_run_inv T es ⟨[], [], List.replicate N false⟩ (by simp)
  have Hs := split_run_inv T es ⟨[], List.replicate N false⟩ (Or.inl rfl)
  have hrep : countTrue (List.replicate N false) = 0 := countTrue_replicate_false N
  have hlenh : (faircmd_hybrid.run T es ⟨[], [], List.replicate N false⟩).done.length = N := by
    rw [Hh.2.2]
    exact List.length_replicate N false
  have hlens : (faircmd_split.run T es ⟨[], List.replicate N false⟩).done.length = N := by
    rw [Hs.2.2]
    exact List.length_replicate N false
  have heqh : countTrue (faircmd_hybrid.run T es ⟨[], [], List.replicate N false⟩).done
      + (faircmd_hybrid.run T es ⟨[], [], List.replicate N false⟩).q.length = N := by
    have h2 := Hh.2.1
    simpa [hrep, hfeeds] using h2
  have heqs : countTrue (faircmd_split.run T es ⟨[], List.replicate N false⟩).done
      + faircmd_split.tcount T (faircmd_split.run T es ⟨[], List.replicate N false⟩).bag = N := by
    have h2 := Hs.2.1
    simpa [hrep, hfeeds, faircmd_split.tcount, faircmd_split.bagFind] using h2
  refine ⟨?_, ?_, ?_, ?_⟩
  · rw [← List.length_eq_zero]
    omega
  · intro hN
    have := (countTrue_eq_length_iff
      (faircmd_hybrid.run T es ⟨[], [], List.replicate N false⟩).done).mp
      (by rw [hlenh, hN])
    rwa [hlenh] at this
  · constructor
    · intro hbag
      rw [hbag] at heqs
      simp [faircmd_split.tcount, faircmd_split.bagFind] at heqs
      omega
    · intro hN
      rcases Hs.1 with hb | ⟨c, hc, hb⟩
      · exact hb
      · rw [hb] at heqs
        simp [faircmd_split.tcount, faircmd_split.bagFind] at heqs
        rw [hb]
        exfalso
        omega
  · intro hN
    have := (countTrue_eq_length_iff
      (faircmd_split.run T es ⟨[], List.replicate N false⟩).done).mp
      (by rw [hlens, hN])
    rwa [hlens] at this

/-- Claim C9 witness: two waiters for "go", two occurrences of "go" fed,
interleaved feed-poll-feed-poll: the queue (and the bag) end empty and
both waiters have consumed. -/
theorem C9_concurrent_single_consumption_witness :
    (faircmd_hybrid.run "go" [.feed, .poll 0, .feed, .poll 1]
        ⟨[], [], List.replicate 2 false⟩).q = []
    ↔ countTrue (faircmd_hybrid.run "go" [.feed, .poll 0, .feed, .poll 1]
        ⟨[], [], List.replicate 2 false⟩).done = 2 :=
  (C9_concurrent_single_consumption "go" 2 [.feed, .poll 0, .feed, .poll 1]
    (by decide)).1
